import Mathlib

/-!
Verification of the sierra-local resistance rule engine.

Shallow embedding notes:
* Python strings are modelled as `List Char`; Python dicts whose claims only
  concern key/value lookups are modelled as association lists with
  last-write-wins update semantics, or as `String → Option _` functions for
  the external prevalence tables loaded from data files.
* Python integers are `Nat`/`Int`; the Python 3 float arithmetic in the
  quality trimmer (`problemSites * 100 / trimLeft`, a true division whose
  operands are small integers and whose result is only compared against the
  constant 30) is modelled by exact rational arithmetic in `ℚ`: for the
  comparison against 30 the IEEE-754 double result and the exact rational
  agree whenever the denominator is below 2^47, which covers every protein
  size the trimmer can see.
* Fallible Python operations (list indexing, dict lookups, asserts) are
  modelled with `Except PyErr`.
-/

/-- Python runtime errors that the embedded code can raise. -/
inductive PyErr where
  | indexError : PyErr
  | keyError : PyErr
  | assertError : PyErr
deriving DecidableEq, Repr

/-- Python string indexing `s[i]`: non-negative indices must be `< len(s)`;
negative indices `-k` address `s[len(s) - k]` and must satisfy `k ≤ len(s)`.
Returns `none` exactly when Python raises `IndexError`. -/
def pyStrGet (s : List Char) (i : Int) : Option Char :=
  if 0 ≤ i then s.get? i.toNat
  else if i.natAbs ≤ s.length then s.get? (s.length - i.natAbs) else none

/-! ## score_alg.py

`parse_drugs`/`_parse_scores` (hivdb.py) produce, per drug, a list whose
entries are either a dict `{'group': [(residue, aas), ...], 'value': v}`
(single-DRM and AND conditions) or a list of such dicts (MAX and MAXAND
conditions).  `score_single` (score_alg.py) flattens either shape into the
parallel lists `residueAAtuples`/`values` (a Python ≥3.7 dict iterates its
keys in insertion order, i.e. `'group'` before `'value'`), so a condition is
faithfully represented by the list of its (group, value) pairs. -/

/-- One `(residue, allowed amino acids)` term of a DRM group. -/
abbrev DrmTerm := Nat × List Char

/-- A parsed condition of a drug rule: either a single dict (single-DRM or
AND condition) or a list of dicts (MAX or MAXAND condition). -/
inductive Condition where
  | single (group : List DrmTerm) (value : Nat)
  | maxOf (alts : List (List DrmTerm × Nat))
deriving DecidableEq

/-- The parallel `residueAAtuples`/`values` lists that `score_single` builds
from a condition, kept zipped (the code pairs `residueAAtuples[iter]` with
`values[iter]`, and both lists are filled in the same order). -/
def Condition.pairs : Condition → List (List DrmTerm × Nat)
  | .single group value => [(group, value)]
  | .maxOf alts => alts

/-- The inner loop of `score_single` over one DRM group (`for tuple in
residueAA`): looks up `sequence[tuple[0] - 1]` (raising `IndexError` when
out of range), counts matched terms, and sets the appended flag as soon as
`count == len(residueAA)` (the group length, passed as `total`). -/
def runGroup (seq : List Char) (total : Nat) :
    List DrmTerm → Nat → Bool → Except PyErr Bool
  | [], _, appended => .ok appended
  | t :: ts, count, appended =>
    match pyStrGet seq ((t.1 : Int) - 1) with
    | none => .error .indexError
    | some ch =>
      if t.2.contains ch then
        runGroup seq total ts (count + 1) (appended || decide (count + 1 = total))
      else
        runGroup seq total ts count appended

/-- The `for residueAA in residueAAtuples` loop of `score_single`: runs each
group and collects `values[iter]` for every group whose flag was set (the
`candidates` list, without its initial `0`). -/
def collectCandidates (seq : List Char) :
    List (List DrmTerm × Nat) → Except PyErr (List Nat)
  | [] => .ok []
  | (g, v) :: rest =>
    match runGroup seq g.length g 0 false with
    | .error e => .error e
    | .ok b =>
      match collectCandidates seq rest with
      | .error e => .error e
      | .ok others => .ok (if b then v :: others else others)

/-- Contribution of one condition in `score_single`:
`max(candidates)` where `candidates = [0] ++ <collected values>`. -/
def scoreCondition (seq : List Char) (c : Condition) : Except PyErr Nat :=
  match collectCandidates seq c.pairs with
  | .error e => .error e
  | .ok cands => .ok (cands.foldl Nat.max 0)

/-- The `for condition in HIVdb[drugname]` loop of `score_single`,
accumulating `score += max(candidates)`. -/
def scoreConditions (seq : List Char) (acc : Nat) :
    List Condition → Except PyErr Nat
  | [] => .ok acc
  | c :: rest =>
    match scoreCondition seq c with
    | .error e => .error e
    | .ok s => scoreConditions seq (acc + s) rest

/-- `score_single(HIVdb, drugname, sequence)` of score_alg.py.  The leading
`assert drugname in HIVdb.keys()` is the `assertError` case. -/
def score_single (db : List (String × List Condition)) (drugname : String)
    (sequence : List Char) : Except PyErr Nat :=
  match db.lookup drugname with
  | none => .error .assertError
  | some conds => scoreConditions sequence 0 conds

/-! Specification-side notions for C1, written from the claim's wording. -/

/-- A `(residue, allowedAAs)` term is satisfied iff the sequence position
`residue` (1-based) exists and holds one of the allowed amino acids. -/
def termMatches (seq : List Char) (t : DrmTerm) : Bool :=
  match pyStrGet seq ((t.1 : Int) - 1) with
  | some ch => t.2.contains ch
  | none => false

/-- Claim-side contribution of a condition node: the maximum value among
the alternatives whose terms are all satisfied, and 0 when none match. -/
def maxContribution (seq : List Char) (pairs : List (List DrmTerm × Nat)) : Nat :=
  ((pairs.filter (fun p => p.1.all (termMatches seq))).map (·.2)).foldl Nat.max 0

/-- Drug database, condition list and query sequence used to witness C1:
a MAXAND condition `MAX ((41L) => 5, (41L AND 215FY) => 15)` plus the single
DRM `62V => 8`, scored against a sequence with `L` at residue 41 and `Y` at
residue 215 and `A` everywhere else. -/
def C1conds : List Condition :=
  [Condition.maxOf [([(41, ['L'])], 5), ([(41, ['L']), (215, ['F', 'Y'])], 15)],
   Condition.single [(62, ['V'])] 8]

def C1db : List (String × List Condition) := [("AZT", C1conds)]

def C1seq : List Char :=
  List.replicate 40 'A' ++ 'L' :: (List.replicate 173 'A' ++ ['Y'])

/-! ## nucaminohook.py: codon ambiguity table (`generateTable`,
`enumerateCodonPossibilities`, `translateNATriplet`)

`generateTable` builds a dict whose keys are exactly the 15^3 triplets over
the IUPAC alphabet `nas` and whose value at each key is computed from the
codon enumeration; the dict is represented by its key predicate
`inTripletTable` together with the value function `tableValue`. -/

/-- The 15 IUPAC nucleotide codes (`nas` in `generateTable`). -/
def nas : List Char :=
  ['A', 'C', 'G', 'T', 'R', 'Y', 'M', 'W', 'S', 'K', 'B', 'D', 'H', 'V', 'N']

/-- The four unambiguous bases. -/
def unambiguousBases : List Char := ['A', 'C', 'G', 'T']

/-- `ambiguityMap` of `enumerateCodonPossibilities`.  On a character outside
the 15 IUPAC codes Python raises `KeyError`; that case is unreachable (the
source only applies the map to `nas` letters) and is modelled as `[]`. -/
def ambiguityMap : Char → List Char
  | 'A' => ['A']
  | 'C' => ['C']
  | 'G' => ['G']
  | 'T' => ['T']
  | 'R' => ['A', 'G']
  | 'Y' => ['C', 'T']
  | 'M' => ['A', 'C']
  | 'W' => ['A', 'T']
  | 'S' => ['C', 'G']
  | 'K' => ['G', 'T']
  | 'B' => ['C', 'G', 'T']
  | 'D' => ['A', 'G', 'T']
  | 'H' => ['A', 'C', 'T']
  | 'V' => ['A', 'C', 'G']
  | 'N' => ['A', 'C', 'G', 'T']
  | _ => []

/-- `codonToAminoAcidMap` of `generateTable`: the standard genetic code on
the 64 unambiguous codons, `none` (Python `KeyError`) elsewhere. -/
def codonToAminoAcidMap : Char → Char → Char → Option Char
  | 'T', 'T', 'T' => some 'F'
  | 'T', 'T', 'C' => some 'F'
  | 'T', 'T', 'A' => some 'L'
  | 'T', 'T', 'G' => some 'L'
  | 'C', 'T', 'T' => some 'L'
  | 'C', 'T', 'C' => some 'L'
  | 'C', 'T', 'A' => some 'L'
  | 'C', 'T', 'G' => some 'L'
  | 'A', 'T', 'T' => some 'I'
  | 'A', 'T', 'C' => some 'I'
  | 'A', 'T', 'A' => some 'I'
  | 'A', 'T', 'G' => some 'M'
  | 'G', 'T', 'T' => some 'V'
  | 'G', 'T', 'C' => some 'V'
  | 'G', 'T', 'A' => some 'V'
  | 'G', 'T', 'G' => some 'V'
  | 'T', 'C', 'T' => some 'S'
  | 'T', 'C', 'C' => some 'S'
  | 'T', 'C', 'A' => some 'S'
  | 'T', 'C', 'G' => some 'S'
  | 'C', 'C', 'T' => some 'P'
  | 'C', 'C', 'C' => some 'P'
  | 'C', 'C', 'A' => some 'P'
  | 'C', 'C', 'G' => some 'P'
  | 'A', 'C', 'T' => some 'T'
  | 'A', 'C', 'C' => some 'T'
  | 'A', 'C', 'A' => some 'T'
  | 'A', 'C', 'G' => some 'T'
  | 'G', 'C', 'T' => some 'A'
  | 'G', 'C', 'C' => some 'A'
  | 'G', 'C', 'A' => some 'A'
  | 'G', 'C', 'G' => some 'A'
  | 'T', 'A', 'T' => some 'Y'
  | 'T', 'A', 'C' => some 'Y'
  | 'T', 'A', 'A' => some '*'
  | 'T', 'A', 'G' => some '*'
  | 'C', 'A', 'T' => some 'H'
  | 'C', 'A', 'C' => some 'H'
  | 'C', 'A', 'A' => some 'Q'
  | 'C', 'A', 'G' => some 'Q'
  | 'A', 'A', 'T' => some 'N'
  | 'A', 'A', 'C' => some 'N'
  | 'A', 'A', 'A' => some 'K'
  | 'A', 'A', 'G' => some 'K'
  | 'G', 'A', 'T' => some 'D'
  | 'G', 'A', 'C' => some 'D'
  | 'G', 'A', 'A' => some 'E'
  | 'G', 'A', 'G' => some 'E'
  | 'T', 'G', 'T' => some 'C'
  | 'T', 'G', 'C' => some 'C'
  | 'T', 'G', 'A' => some '*'
  | 'T', 'G', 'G' => some 'W'
  | 'C', 'G', 'T' => some 'R'
  | 'C', 'G', 'C' => some 'R'
  | 'C', 'G', 'A' => some 'R'
  | 'C', 'G', 'G' => some 'R'
  | 'A', 'G', 'T' => some 'S'
  | 'A', 'G', 'C' => some 'S'
  | 'A', 'G', 'A' => some 'R'
  | 'A', 'G', 'G' => some 'R'
  | 'G', 'G', 'T' => some 'G'
  | 'G', 'G', 'C' => some 'G'
  | 'G', 'G', 'A' => some 'G'
  | 'G', 'G', 'G' => some 'G'
  | _, _, _ => none

/-- `enumerateCodonPossibilities(triplet)`: cartesian product of the three
positions' base sets, in the source's nesting order. -/
def enumerateCodonPossibilities (c1 c2 c3 : Char) : List (Char × Char × Char) :=
  (ambiguityMap c1).flatMap fun p1 =>
    (ambiguityMap c2).flatMap fun p2 =>
      (ambiguityMap c3).map fun p3 => (p1, p2, p3)

/-- The `for codon in codons: c = codonToAminoAcidMap[codon]` loop of
`generateTable`; `none` when any lookup would raise `KeyError`. -/
def codonAAs : List (Char × Char × Char) → Option (List Char)
  | [] => some []
  | c :: cs =>
    match codonToAminoAcidMap c.1 c.2.1 c.2.2, codonAAs cs with
    | some a, some rest => some (a :: rest)
    | _, _ => none

/-- The `uniqueAAs` accumulation of `generateTable`: append each symbol not
seen yet, preserving first-seen order. -/
def dedupAppend (acc : List Char) : List Char → List Char
  | [] => acc
  | c :: cs =>
    if acc.contains c then dedupAppend acc cs else dedupAppend (acc ++ [c]) cs

/-- The distinct amino-acid/stop symbols encoded by a triplet, in first-seen
order (the `uniqueAAs` list of `generateTable`). -/
def uniqueAAsOf (c1 c2 c3 : Char) : Option (List Char) :=
  (codonAAs (enumerateCodonPossibilities c1 c2 c3)).map (dedupAppend [])

/-- The value `generateTable` stores for a triplet: `"X"` when more than 4
distinct symbols, otherwise the joined distinct symbols. -/
def tableValue (c1 c2 c3 : Char) : Option (List Char) :=
  match uniqueAAsOf c1 c2 c3 with
  | none => none
  | some u => some (if u.length > 4 then ['X'] else u)

/-- Key-membership in the dict built by `generateTable`: exactly the
length-3 strings over the 15 IUPAC codes. -/
def inTripletTable (t : List Char) : Bool :=
  t.length == 3 && t.all (nas.contains ·)

/-- `translateNATriplet(triplet)`: `"X"` for non-triplets, for triplets
containing `~`, and for triplets outside the table; the table value
otherwise. -/
def translateNATriplet (t : List Char) : Option (List Char) :=
  if t.length ≠ 3 then some ['X']
  else if t.contains '~' then some ['X']
  else if inTripletTable t then
    match t with
    | [c1, c2, c3] => tableValue c1 c2 c3
    | _ => some ['X']  -- unreachable: the length test guarantees 3 characters
  else some ['X']

/-! ## nucaminohook.py: prevalence lookups and quality trimming

The three prevalence dicts (`PI_dict`, `RTI_dict`, `INI_dict`) are loaded
from external TSV data files; they are modelled as `String → Option ℚ`
parameters.  The APOBEC DRM list, loaded from `apobec.tsv`, is modelled as
a list of (gene, consensus, position, flagged AAs) rows. -/

/-- The dict key `str(position) + cons + aa + subtype` of
`getMutPrevalence`. -/
def mkPrevKey (position : Nat) (cons aa : Char) (subtype : String) : String :=
  toString position ++ String.mk [cons] ++ String.mk [aa] ++ subtype

/-- `getMutPrevalence(position, cons, aa, gene, subtype)`: returns the
selected gene's table entry when present, 100.0 otherwise. -/
def getMutPrevalence (PI RTI INI : String → Option ℚ) (position : Nat)
    (cons aa : Char) (gene subtype : String) : ℚ :=
  let key2 := mkPrevKey position cons aa subtype
  if gene == "IN" && (INI key2).isSome then (INI key2).getD 100
  else if gene == "PR" && (PI key2).isSome then (PI key2).getD 100
  else if gene == "RT" && (RTI key2).isSome then (RTI key2).getD 100
  else 100

/-- `getHighestMutPrevalence(mutation, gene, subtype)`: drops the consensus
letter and stop symbols from the observed amino acids (the two `replace`
calls) and folds `max` over the per-amino-acid prevalences, starting from
0.0. -/
def getHighestMutPrevalence (PI RTI INI : String → Option ℚ)
    (mutation : Nat × Char × List Char) (gene subtype : String) : ℚ :=
  let position := mutation.1
  let cons := mutation.2.1
  let aas := (mutation.2.2.filter (fun a => !(a == cons))).filter
    (fun a => !(a == '*'))
  aas.foldl (fun prevalence aa =>
    max prevalence (getMutPrevalence PI RTI INI position cons aa gene subtype)) 0

/-- `isUnsequenced(triplet)`: more than one `N` after replacing `-` by
`N`. -/
def isUnsequenced (triplet : List Char) : Bool :=
  decide (1 < ((triplet.map (fun c => if c == '-' then 'N' else c)).count 'N'))

/-- `isStopCodon(triplet)`: the translation contains `*` (the table build
cannot fail, so the `none` fallback is unreachable). -/
def isStopCodon (triplet : List Char) : Bool :=
  ((translateNATriplet triplet).map (fun r => r.contains '*')).getD false

/-- `isApobecDRM(gene, consensus, position, AA)`: looks up the first APOBEC
row matching (gene, consensus, position) and checks whether any observed
amino acid is among the row's flagged AAs.  Positions are compared
numerically (the source compares their decimal strings, which coincide for
the canonical representations found in the data). -/
def isApobecDRM (rows : List (String × Char × Nat × List Char))
    (gene : String) (cons : Char) (position : Nat) (aas : List Char) : Bool :=
  match rows.find? (fun r =>
      r.1 == gene && r.2.1 == cons && r.2.2.1 == position) with
  | some r => aas.any (fun aa => r.2.2.2.contains aa)
  | none => false

/-- The bad-percentage comparison of the trimming scans, exactly as written
in the source: `(problemSites * 100 / trimLen if trimLen > 0 else 0) > 30`,
with Python 3 true division modelled exactly in `ℚ`. -/
def pcntExceeds (p t : Nat) : Prop :=
  (if t > 0 then ((p : Nat) : ℚ) * 100 / ((t : Nat) : ℚ) else 0) > 30

/-- Decidability of `pcntExceeds` through the equivalent integer
cross-multiplication (rational division does not reduce in the kernel). -/
instance (p t : Nat) : Decidable (pcntExceeds p t) :=
  decidable_of_iff (0 < t ∧ 30 * t < 100 * p) (by
    unfold pcntExceeds
    constructor
    · rintro ⟨ht, h⟩
      rw [if_pos ht, gt_iff_lt, lt_div_iff₀ (by exact_mod_cast ht)]
      have h' : ((30 * t : Nat) : ℚ) < ((100 * p : Nat) : ℚ) := by
        exact_mod_cast h
      push_cast at h'
      linarith
    · intro h
      by_cases ht : t > 0
      · refine ⟨ht, ?_⟩
        rw [if_pos ht, gt_iff_lt, lt_div_iff₀ (by exact_mod_cast ht)] at h
        have h' : ((30 * t : Nat) : ℚ) < ((100 * p : Nat) : ℚ) := by
          push_cast
          linarith
        exact_mod_cast h'
      · rw [if_neg ht] at h
        norm_num at h)

/-- The rare-mutation cutoff of the trimmer: prevalence below
`SEQUENCE_SHRINKAGE_BAD_QUALITY_MUT_PREVALENCE = 0.1`. -/
def belowRareCutoff (q : ℚ) : Prop := q < 1 / 10

/-- Decidability of `belowRareCutoff` through the numerator/denominator
cross-multiplication. -/
instance (q : ℚ) : Decidable (belowRareCutoff q) :=
  decidable_of_iff (q.num * 10 < (q.den : Int)) (by
    have key : (q.num : ℚ) * 10 < (q.den : ℚ) ↔ q < 1 / 10 := by
      constructor
      · intro h
        rw [show q = (q.num : ℚ) / (q.den : ℚ) from (Rat.num_div_den q).symm]
        rw [div_lt_div_iff₀ (by exact_mod_cast q.den_pos) (by norm_num)]
        linarith
      · intro h
        have h2 : (q.num : ℚ) / (q.den : ℚ) < 1 / 10 := by
          rw [Rat.num_div_den q]
          exact h
        rw [div_lt_div_iff₀ (by exact_mod_cast q.den_pos) (by norm_num)] at h2
        linarith
    unfold belowRareCutoff
    rw [← key]
    constructor
    · intro h
      have h' : ((q.num * 10 : Int) : ℚ) < ((q.den : Int) : ℚ) := by
        exact_mod_cast h
      push_cast at h'
      linarith
    · intro h
      have h' : ((q.num * 10 : Int) : ℚ) < ((q.den : Int) : ℚ) := by
        push_cast
        linarith
      exact_mod_cast h')

/-- The invalid-sites bitmap construction of `trimLowQualities`: one entry
per mutation (paired with its codon, built in lockstep by `get_mutations`),
marking index `position - firstAA + shift` invalid when the codon is
sequenced and the call is rare (< 0.1), is `X`, is an APOBEC signature, or
is a stop codon.  Positions are assumed in `[firstAA - shift,
lastAA - shift]` (the Mutation Caller's output range); Python would raise
`IndexError` outside the bitmap, while `List.set` ignores such writes. -/
def buildInvalidSites (PI RTI INI : String → Option ℚ)
    (apobecDRMs : List (String × Char × Nat × List Char))
    (gene subtype : String) (shift firstAA lastAA : Nat)
    (muts : List ((Nat × Char × List Char) × List Char)) : List Bool :=
  muts.foldl (fun sites entry =>
    let position := entry.1.1
    let codon := entry.2
    let idx := position - firstAA + shift
    if !(isUnsequenced codon) &&
        (decide (belowRareCutoff
            (getHighestMutPrevalence PI RTI INI entry.1 gene subtype)) ||
          (entry.1.2.2 == ['X']) ||
          isApobecDRM apobecDRMs gene entry.1.2.1 position entry.1.2.2 ||
          isStopCodon codon)
    then sites.set idx true else sites)
    (List.replicate (lastAA - firstAA + 1) false)

/-- The forward trimming scan of `trimLowQualities`, over the invalid-sites
bitmap: state `(pos, problemSites, since, candidates)` mirrors the loop
variables `(idx, problemSites, sinceLastBadQuality, candidates)`; `badPcnt`
is Python 3 true division, modelled exactly in `ℚ`. -/
def scanLoop : Nat → Nat → Nat → List Nat → List Bool → List Nat
  | _, _, _, candidates, [] => candidates
  | pos, problemSites, since, candidates, b :: rest =>
    if since > 15 then candidates
    else if b then
      scanLoop (pos + 1) (problemSites + 1) 0
        (if pcntExceeds (problemSites + 1) (pos + 1)
          then candidates ++ [pos + 1] else candidates) rest
    else scanLoop (pos + 1) problemSites (since + 1) candidates rest

/-- `trimLeft`: last recorded candidate of the forward scan, or 0
(`candidates[-1] if len(candidates) > 0 else 0`). -/
def forwardTrim (sites : List Bool) : Nat :=
  (scanLoop 0 0 0 [] sites).getLastD 0

/-- `trimRight`: the backward loop runs `idx` from `proteinSize - 1` down to
0 reading `invalidSites[idx]` and recording `proteinSize - idx`; writing
`j = proteinSize - 1 - idx` it reads `sites.reverse[j]` and records `j + 1`
with state updates identical to the forward loop, so it is the forward scan
of the reversed bitmap. -/
def backwardTrim (sites : List Bool) : Nat :=
  (scanLoop 0 0 0 [] sites.reverse).getLastD 0

/-- `trimLowQualities(...)`: bitmap construction followed by the two
scans. -/
def trimLowQualities (PI RTI INI : String → Option ℚ)
    (apobecDRMs : List (String × Char × Nat × List Char))
    (gene subtype : String) (shift firstAA lastAA : Nat)
    (muts : List ((Nat × Char × List Char) × List Char)) : Nat × Nat :=
  let sites := buildInvalidSites PI RTI INI apobecDRMs gene subtype shift
    firstAA lastAA muts
  (forwardTrim sites, backwardTrim sites)

/-! Claim-side definitions for C5-C7. -/

/-- The prefix of the bitmap actually examined by a scan: consumption stops
as soon as the count of valid positions since the last invalid one exceeds
the window of 15. -/
def processedPrefix : Nat → List Bool → List Bool
  | _, [] => []
  | since, b :: rest =>
    if since > 15 then []
    else b :: processedPrefix (if b then 0 else since + 1) rest

/-- The trim candidates as described by the spec: among the scanned prefix,
every invalid position `i` whose running bad-percentage
`(invalid-count-so-far / positions-scanned-so-far) × 100` exceeds 30
records the scan extent `i + 1`. -/
def candidatesSpec (sites : List Bool) : List Nat :=
  (List.range (processedPrefix 0 sites).length).filterMap fun i =>
    if (processedPrefix 0 sites).getD i false &&
        decide (((((processedPrefix 0 sites).take (i + 1)).count true : ℚ) /
          ((i : ℚ) + 1)) * 100 > 30)
    then some (i + 1) else none

/-- Accumulator-free form of `scanLoop` (the candidates it appends). -/
def candidatesAux : Nat → Nat → Nat → List Bool → List Nat
  | _, _, _, [] => []
  | pos, problemSites, since, b :: rest =>
    if since > 15 then []
    else if b then
      (if pcntExceeds (problemSites + 1) (pos + 1)
        then [pos + 1] else []) ++ candidatesAux (pos + 1) (problemSites + 1) 0 rest
    else candidatesAux (pos + 1) problemSites (since + 1) rest

/-- The scan as the claim C7 describes it: `problemSites * 100 / trimLeft`
read as truncating integer division. -/
def scanLoopTruncated : Nat → Nat → Nat → List Nat → List Bool → List Nat
  | _, _, _, candidates, [] => candidates
  | pos, problemSites, since, candidates, b :: rest =>
    if since > 15 then candidates
    else if b then
      scanLoopTruncated (pos + 1) (problemSites + 1) 0
        (if (if pos + 1 > 0 then (problemSites + 1) * 100 / (pos + 1) else 0) > 30
          then candidates ++ [pos + 1] else candidates) rest
    else scanLoopTruncated (pos + 1) problemSites (since + 1) candidates rest

def forwardTrimTruncated (sites : List Bool) : Nat :=
  (scanLoopTruncated 0 0 0 [] sites).getLastD 0

/-- The scan with the exact cross-multiplied comparison
`100 * problemSites > 30 * extent` (no division at all). -/
def scanLoopCross : Nat → Nat → Nat → List Nat → List Bool → List Nat
  | _, _, _, candidates, [] => candidates
  | pos, problemSites, since, candidates, b :: rest =>
    if since > 15 then candidates
    else if b then
      scanLoopCross (pos + 1) (problemSites + 1) 0
        (if 100 * (problemSites + 1) > 30 * (pos + 1)
          then candidates ++ [pos + 1] else candidates) rest
    else scanLoopCross (pos + 1) problemSites (since + 1) candidates rest

def forwardTrimCross (sites : List Bool) : Nat :=
  (scanLoopCross 0 0 0 [] sites).getLastD 0

def backwardTrimCross (sites : List Bool) : Nat :=
  (scanLoopCross 0 0 0 [] sites.reverse).getLastD 0

/-- Bitmap separating true division from truncating division: invalid
positions at indices 3, 7, 11, 12.  At index 12 the running percentage is
400/13 ≈ 30.77, which exceeds 30, while its truncation 30 does not. -/
def C7bitmap : List Bool :=
  [false, false, false, true, false, false, false, true, false, false,
   false, true, true] ++ List.replicate 16 false

/-- Inputs witnessing C5: a single mutation at position 115 with amino acid
`X` (firstAA 100, lastAA 130, shift 0), giving a 31-position bitmap whose
only invalid index is 15. -/
def C5muts : List ((Nat × Char × List Char) × List Char) :=
  [((115, 'A', ['X']), ['T', 'T', 'T'])]

/-- Empty prevalence table used in witnesses. -/
def noTable : String → Option ℚ := fun _ => none

/-! ## nucaminohook.py: gene map and gene assignment (C8)

`create_gene_map` converts the HXB2 nucleotide bounds of PR/RT/IN into
amino-acid bounds; `get_gene` returns the first gene whose interval contains
`firstAA`, or `None`. -/

def pol_start : Nat := 2085

/-- `pol_nuc_map`: start and end nucleotide coordinates in HXB2 pol. -/
def pol_nuc_map : List (String × Nat × Nat) :=
  [("PR", 2253, 2549), ("RT", 2550, 3869), ("IN", 4230, 5096)]

/-- `create_gene_map`: `convert = lambda x: int((x - pol_start)/3)`; all the
coordinates exceed `pol_start`, so `int()` truncation is `Nat` division. -/
def gene_map : List (String × Nat × Nat) :=
  pol_nuc_map.map (fun p => (p.1, (p.2.1 - pol_start) / 3,
    (p.2.2 - pol_start) / 3))

/-- `get_gene(firstAA)`: first gene whose amino-acid bounds contain
`firstAA`, else `None`. -/
def get_gene (firstAA : Nat) : Option String :=
  (gene_map.find? (fun p => p.2.1 ≤ firstAA && firstAA ≤ p.2.2)).map (·.1)

/-- The `gene = self.get_gene(firstAA); shift = int(self.gene_map[gene][0])`
step of `get_mutations` (sierralocal/nucaminohook.py lines 149-150):
`gene_map` has only string keys, so when `get_gene` returns `None` the
lookup `gene_map[None]` raises `KeyError` and the sequence is not
processed. -/
def get_mutations_shift (firstAA : Nat) : Except PyErr Nat :=
  match get_gene firstAA with
  | none => .error .keyError
  | some g =>
    match gene_map.find? (fun p => p.1 == g) with
    | some p => .ok p.2.1
    | none => .error .keyError

/-- One step of the legacy draft's per-position gene scan
(src/nucaminohook.py `get_mutations`): append a gene whose interval contains
the shifted position, unless already listed. -/
def legacyGeneStep (p shift : Nat) (genelist : List String)
    (kr : String × Nat × Nat) : List String :=
  if kr.2.1 ≤ p + shift ∧ p + shift ≤ kr.2.2 then
    if kr.1 ∈ genelist then genelist else genelist ++ [kr.1]
  else genelist

/-- The legacy draft's gene list: scan every mutation position against the
gene map and fall back to `['RT', 'PR', 'IN']` when nothing matched. -/
def legacy_genelist (genemap : List (String × Nat × Nat))
    (positions : List Nat) (shift : Nat) : List String :=
  let gl := positions.foldl
    (fun genelist p => genemap.foldl (legacyGeneStep p shift) genelist) []
  if gl.isEmpty then ["RT", "PR", "IN"] else gl

/-! ## hivdb.py: parse_drugs (C9)

The XML document is modelled as the list of its DRUG elements (the loop
skips all other tags); `parse_condition` is taken as a parameter, since C9
only concerns the key structure of the resulting dict.  The dict itself is
an association list with Python semantics: updating an existing key keeps
its position, new keys append. -/

structure DrugElement where
  name : String
  fullname : String
  condition : String
deriving DecidableEq

/-- Python dict assignment `d[k] = v`. -/
def dictSet {α : Type} : List (String × α) → String → α → List (String × α)
  | [], k, v => [(k, v)]
  | p :: rest, k, v =>
    if p.1 == k then (k, v) :: rest else p :: dictSet rest k v

/-- `self.drugs[drug] = self.drugs[fullname] = cond_dict` for one DRUG
element. -/
def insertDrug {α : Type} (parseCondition : String → α)
    (drugs : List (String × α)) (e : DrugElement) : List (String × α) :=
  dictSet (dictSet drugs e.name (parseCondition e.condition)) e.fullname
    (parseCondition e.condition)

/-- `parse_drugs(root)`: iterate the DRUG elements, parsing each condition
and storing it under both the short name and the full name. -/
def parse_drugs {α : Type} (parseCondition : String → α)
    (elements : List DrugElement) : List (String × α) :=
  elements.foldl (insertDrug parseCondition) []

/-- Claim-side for C10: the prevalence table `getMutPrevalence` selects for
a gene (none for genes other than PR/RT/IN). -/
def selectedPrevTable (PI RTI INI : String → Option ℚ) (gene : String) :
    String → Option ℚ :=
  if gene == "IN" then INI
  else if gene == "PR" then PI
  else if gene == "RT" then RTI
  else fun _ => none

/-! ## Theorems -/

/-- `runGroup` characterisation: when every referenced sequence index is in
range, the appended flag comes out true iff the flag was already set or the
remaining terms are nonempty, all match, and they carry the count exactly to
`total`. -/
theorem runGroup_spec (seq : List Char) (total : Nat) :
    ∀ (ts : List DrmTerm) (count : Nat) (appended : Bool),
      (∀ t ∈ ts, (pyStrGet seq ((t.1 : Int) - 1)).isSome) →
      count + ts.length ≤ total →
      runGroup seq total ts count appended =
        .ok (appended ||
          (!ts.isEmpty && ts.all (termMatches seq) &&
            decide (count + ts.length = total))) := by
  intro ts
  induction ts with
  | nil => intro count appended _ _; simp [runGroup]
  | cons t ts ih =>
    intro count appended hsome hle
    obtain ⟨ch, hch⟩ := Option.isSome_iff_exists.mp (hsome t (by simp))
    have hrest : ∀ t' ∈ ts, (pyStrGet seq ((t'.1 : Int) - 1)).isSome := by
      intro t' ht'; exact hsome t' (by simp [ht'])
    have hmt : termMatches seq t = t.2.contains ch := by
      simp [termMatches, hch]
    have hlen : count + ts.length + 1 ≤ total := by
      simp only [List.length_cons] at hle; omega
    simp only [runGroup, hch]
    by_cases hc : t.2.contains ch = true
    · have hc' : ch ∈ t.2 := by simpa using hc
      rw [if_pos hc, ih (count + 1) _ hrest (by omega)]
      cases ts with
      | nil =>
        simp [hmt, hc, hc', Nat.add_comm]
      | cons t' ts' =>
        have hne : decide (count + 1 = total) = false := by
          have : ts'.length + 1 + 1 + count ≤ total := by
            simpa [Nat.add_comm, Nat.add_left_comm] using hlen
          simp; omega
        simp only [hne, Bool.or_false, List.isEmpty_cons, Bool.not_false,
          List.all_cons, hmt, List.length_cons]
        have hc'' : t.2.contains ch = true := hc
        have harith : count + 1 + (ts'.length + 1) = count + (ts'.length + 1 + 1) := by
          omega
        simp [hc', harith]
    · rw [if_neg hc]
      rw [ih count appended hrest (by omega)]
      have hc' : ¬ (ch ∈ t.2) := by
        intro hmem
        exact hc (by simpa using hmem)
      have hfalse : termMatches seq t = false := by
        rw [hmt]
        simpa using hc'
      have hne : decide (count + ts.length = total) = false := by
        simp; omega
      simp [hfalse, hne]

/-- `collectCandidates` characterisation: when all groups are nonempty and
all referenced indices are in range, the collected candidate values are
exactly the values of the fully-matched groups, in order. -/
theorem collectCandidates_spec (seq : List Char) :
    ∀ pairs : List (List DrmTerm × Nat),
      (∀ p ∈ pairs, p.1 ≠ [] ∧ ∀ t ∈ p.1, (pyStrGet seq ((t.1 : Int) - 1)).isSome) →
      collectCandidates seq pairs =
        .ok ((pairs.filter (fun p => p.1.all (termMatches seq))).map (·.2)) := by
  intro pairs
  induction pairs with
  | nil => intro _; simp [collectCandidates]
  | cons p rest ih =>
    intro h
    obtain ⟨hne, hsome⟩ := h p (by simp)
    have hrest : ∀ q ∈ rest, q.1 ≠ [] ∧ ∀ t ∈ q.1, (pyStrGet seq ((t.1 : Int) - 1)).isSome := by
      intro q hq; exact h q (by simp [hq])
    obtain ⟨g, v⟩ := p
    simp only [collectCandidates]
    rw [runGroup_spec seq g.length g 0 false hsome (by simp)]
    rw [ih hrest]
    have hemp : g.isEmpty = false := by
      cases g with
      | nil => exact absurd rfl hne
      | cons _ _ => rfl
    simp only [hemp, Bool.not_false, Bool.true_and, beq_self_eq_true,
      Bool.and_true, Bool.false_or, Nat.zero_add]
    by_cases hall : g.all (termMatches seq) = true
    · simp [hall, List.filter_cons]
    · simp only [Bool.not_eq_true] at hall
      simp [hall, List.filter_cons]

/-- `scoreConditions` accumulates exactly the sum of the per-condition
contributions whenever every referenced residue index is in range and every
group is nonempty. -/
theorem scoreConditions_spec (seq : List Char) :
    ∀ (conds : List Condition) (acc : Nat),
      (∀ c ∈ conds, ∀ p ∈ c.pairs, p.1 ≠ [] ∧
        ∀ t ∈ p.1, (pyStrGet seq ((t.1 : Int) - 1)).isSome) →
      scoreConditions seq acc conds =
        .ok (acc + (conds.map (fun c => maxContribution seq c.pairs)).sum) := by
  intro conds
  induction conds with
  | nil => intro acc _; simp [scoreConditions]
  | cons c rest ih =>
    intro acc h
    have hc := h c (by simp)
    have hrest : ∀ c' ∈ rest, ∀ p ∈ Condition.pairs c', p.1 ≠ [] ∧
        ∀ t ∈ p.1, (pyStrGet seq ((t.1 : Int) - 1)).isSome := by
      intro c' hc'; exact h c' (by simp [hc'])
    simp only [scoreConditions, scoreCondition, collectCandidates_spec seq c.pairs hc]
    rw [show (List.foldl Nat.max 0 (List.map (fun x => x.2)
          (List.filter (fun p => p.1.all (termMatches seq)) c.pairs))) =
        maxContribution seq c.pairs from rfl]
    rw [ih (acc + maxContribution seq c.pairs) hrest]
    simp [Nat.add_assoc]

/-- C1: under `score_single`, the contribution of each condition node — in
particular each MAX / MAXAND node, whose parsed form is
`Condition.maxOf alts` — is the maximum value among the alternatives whose
(residue, allowedAAs) terms are all satisfied by the query sequence, and 0
when no alternative matches (never the sum of the matched alternatives);
the drug's total score is the sum of these per-node contributions over the
drug's condition list.  Hypotheses: the drug is present in the database and
the rule is well-formed for the sequence (nonempty groups, referenced
residues in range, so that evaluation raises no error). -/
theorem C1_max_node_semantics (db : List (String × List Condition))
    (drugname : String) (seq : List Char) (conds : List Condition)
    (hfound : db.lookup drugname = some conds)
    (hwf : ∀ c ∈ conds, ∀ p ∈ c.pairs, p.1 ≠ [] ∧
      ∀ t ∈ p.1, (pyStrGet seq ((t.1 : Int) - 1)).isSome) :
    score_single db drugname seq =
      .ok ((conds.map (fun c => maxContribution seq c.pairs)).sum) ∧
    ∀ alts, Condition.maxOf alts ∈ conds →
      maxContribution seq (Condition.maxOf alts).pairs =
        ((alts.filter (fun p => p.1.all (termMatches seq))).map (·.2)).foldl
          Nat.max 0 := by
  constructor
  · simp only [score_single, hfound]
    simpa using scoreConditions_spec seq conds 0 hwf
  · intro alts _
    rfl

/-- Witness for C1: on the concrete database `C1db` (a `MAX ((41L) => 5,
(41L AND 215FY) => 15)` node plus `62V => 8`), the sequence `C1seq` matches
only the 15-valued alternative of the MAX node and misses `62V`, so the
total score is 15 — not 5, not 20, not 23. -/
theorem C1_max_node_semantics_witness :
    C1db.lookup "AZT" = some C1conds ∧
      score_single C1db "AZT" C1seq = .ok 15 :=
  ⟨rfl,
    (C1_max_node_semantics C1db "AZT" C1seq C1conds rfl (by decide)).1.trans
      (by rfl)⟩

/-- C2: the claim states that a residue absent from the call set never makes
scoring raise an error; the code instead raises `IndexError` from
`sequence[tuple[0] - 1]` when the rule references residue 5 of a 3-character
sequence (score_alg.py's own TODO comment at the `count == len(residueAA)`
check concedes this: "if IndexError, continue as well (don't throw error
just because sequence isn't that long)"). -/
theorem C2_missing_residue_raises_indexError :
    score_single [("EXAMPLE", [Condition.single [(5, ['L'])] 10])] "EXAMPLE"
      ['A', 'A', 'A'] = .error .indexError := rfl

/-- Every base set of the ambiguity map of an IUPAC code consists of
unambiguous bases. -/
theorem amb_sub : ∀ c ∈ nas, ∀ x ∈ ambiguityMap c, x ∈ unambiguousBases := by
  decide

/-- On unambiguous codons the genetic-code lookup succeeds and never yields
the placeholder `X`. -/
theorem codonMap_acgt : ∀ a ∈ unambiguousBases, ∀ b ∈ unambiguousBases,
    ∀ c ∈ unambiguousBases, (codonToAminoAcidMap a b c).isSome ∧
      codonToAminoAcidMap a b c ≠ some 'X' := by
  decide

/-- No IUPAC code is a gap marker. -/
theorem nas_no_gap : ∀ c ∈ nas, c ≠ '~' ∧ c ≠ '-' := by decide

theorem mem_dedupAppend : ∀ (l acc : List Char) (x : Char),
    x ∈ dedupAppend acc l ↔ x ∈ acc ∨ x ∈ l := by
  intro l
  induction l with
  | nil => intro acc x; simp [dedupAppend]
  | cons c cs ih =>
    intro acc x
    simp only [dedupAppend]
    by_cases hc : acc.contains c = true
    · rw [if_pos hc, ih]
      have hmem : c ∈ acc := by simpa using hc
      constructor
      · rintro (h | h)
        · exact Or.inl h
        · exact Or.inr (by simp [h])
      · rintro (h | h)
        · exact Or.inl h
        · rcases List.mem_cons.mp h with h | h
          · exact Or.inl (h ▸ hmem)
          · exact Or.inr h
    · rw [if_neg hc, ih]
      simp [List.mem_append, or_assoc]

theorem nodup_dedupAppend : ∀ (l acc : List Char), acc.Nodup →
    (dedupAppend acc l).Nodup := by
  intro l
  induction l with
  | nil => intro acc h; simpa [dedupAppend] using h
  | cons c cs ih =>
    intro acc h
    simp only [dedupAppend]
    by_cases hc : acc.contains c = true
    · rw [if_pos hc]; exact ih acc h
    · rw [if_neg hc]
      apply ih
      have hnot : c ∉ acc := by simpa using hc
      simp [List.nodup_append, h, hnot]

theorem codonAAs_eq_filterMap : ∀ l : List (Char × Char × Char),
    (∀ c ∈ l, (codonToAminoAcidMap c.1 c.2.1 c.2.2).isSome) →
    codonAAs l =
      some (l.filterMap (fun c => codonToAminoAcidMap c.1 c.2.1 c.2.2)) := by
  intro l
  induction l with
  | nil => intro _; simp [codonAAs]
  | cons c cs ih =>
    intro h
    obtain ⟨a, ha⟩ := Option.isSome_iff_exists.mp (h c (by simp))
    rw [show codonAAs (c :: cs) =
        (match codonToAminoAcidMap c.1 c.2.1 c.2.2, codonAAs cs with
         | some a, some rest => some (a :: rest)
         | _, _ => none) from rfl]
    rw [ha, ih (fun c' hc' => h c' (by simp [hc']))]
    simp [List.filterMap_cons, ha]

/-- Every codon enumerated from an IUPAC triplet is unambiguous. -/
theorem enum_codons_acgt (c1 c2 c3 : Char) (h1 : c1 ∈ nas) (h2 : c2 ∈ nas)
    (h3 : c3 ∈ nas) :
    ∀ codon ∈ enumerateCodonPossibilities c1 c2 c3,
      codon.1 ∈ unambiguousBases ∧ codon.2.1 ∈ unambiguousBases ∧
        codon.2.2 ∈ unambiguousBases := by
  intro codon hmem
  simp only [enumerateCodonPossibilities, List.mem_flatMap, List.mem_map] at hmem
  obtain ⟨p1, hp1, p2, hp2, p3, hp3, rfl⟩ := hmem
  exact ⟨amb_sub c1 h1 p1 hp1, amb_sub c2 h2 p2 hp2, amb_sub c3 h3 p3 hp3⟩

/-- On an in-table triplet without `~`, `translateNATriplet` returns the
table value. -/
theorem translate_table_arm (c1 c2 c3 : Char)
    (h : '~' ∉ ([c1, c2, c3] : List Char))
    (htab : inTripletTable [c1, c2, c3] = true) :
    translateNATriplet [c1, c2, c3] = tableValue c1 c2 c3 := by
  have h' : ¬('~' = c1 ∨ '~' = c2 ∨ '~' = c3) := by simpa using h
  simp [translateNATriplet, htab, h']

/-- Full characterisation of `translateNATriplet` on IUPAC triplets: the
distinct-symbol list `u` exists, is duplicate-free, contains exactly the
symbols of the enumerated codons, contains no `X`, and the result is `X`
precisely on the over-4 collapse. -/
theorem translate_nas (c1 c2 c3 : Char) (h1 : c1 ∈ nas) (h2 : c2 ∈ nas)
    (h3 : c3 ∈ nas) :
    ∃ u, uniqueAAsOf c1 c2 c3 = some u ∧
      translateNATriplet [c1, c2, c3] = some (if u.length > 4 then ['X'] else u) ∧
      u.Nodup ∧
      (∀ x, x ∈ u ↔ ∃ codon ∈ enumerateCodonPossibilities c1 c2 c3,
        codonToAminoAcidMap codon.1 codon.2.1 codon.2.2 = some x) ∧
      'X' ∉ u := by
  have hsome : ∀ codon ∈ enumerateCodonPossibilities c1 c2 c3,
      (codonToAminoAcidMap codon.1 codon.2.1 codon.2.2).isSome := by
    intro codon hm
    obtain ⟨ha, hb, hc⟩ := enum_codons_acgt c1 c2 c3 h1 h2 h3 codon hm
    exact (codonMap_acgt codon.1 ha codon.2.1 hb codon.2.2 hc).1
  have hAAs := codonAAs_eq_filterMap _ hsome
  have hmem : ∀ x, x ∈ dedupAppend []
      ((enumerateCodonPossibilities c1 c2 c3).filterMap
        (fun c => codonToAminoAcidMap c.1 c.2.1 c.2.2)) ↔
      ∃ codon ∈ enumerateCodonPossibilities c1 c2 c3,
        codonToAminoAcidMap codon.1 codon.2.1 codon.2.2 = some x := by
    intro x
    rw [mem_dedupAppend]
    simp [List.mem_filterMap]
  refine ⟨_, ?_, ?_, ?_, hmem, ?_⟩
  · simp [uniqueAAsOf, hAAs]
  · have htilde : '~' ∉ ([c1, c2, c3] : List Char) := by
      intro hm
      rcases List.mem_cons.mp hm with e | hm
      · exact (nas_no_gap c1 h1).1 e.symm
      rcases List.mem_cons.mp hm with e | hm
      · exact (nas_no_gap c2 h2).1 e.symm
      rcases List.mem_cons.mp hm with e | hm
      · exact (nas_no_gap c3 h3).1 e.symm
      · simp at hm
    have htab : inTripletTable [c1, c2, c3] = true := by
      simp [inTripletTable, h1, h2, h3]
    rw [translate_table_arm c1 c2 c3 htilde htab]
    simp [tableValue, uniqueAAsOf, hAAs]
  · exact nodup_dedupAppend _ _ List.nodup_nil
  · intro hX
    obtain ⟨codon, hcod, hmap⟩ := (hmem 'X').mp hX
    obtain ⟨ha, hb, hc⟩ := enum_codons_acgt c1 c2 c3 h1 h2 h3 codon hcod
    exact (codonMap_acgt codon.1 ha codon.2.1 hb codon.2.2 hc).2 hmap

/-- C3: for every IUPAC triplet with at least one ambiguous base,
`translateNATriplet` returns a string whose distinct-symbol list `u` is
exactly the set of amino-acid/stop symbols of the concrete resolutions; the
result is exactly `"X"` iff the number of distinct symbols exceeds 4, and
when it does not, the symbol of every concrete resolution appears in the
result; moreover any triplet containing a gap/deletion marker (`~` or `-`)
maps to `"X"`. -/
theorem C3_ambiguous_triplet_translation :
    (∀ c1 c2 c3 : Char, c1 ∈ nas → c2 ∈ nas → c3 ∈ nas →
      (c1 ∉ unambiguousBases ∨ c2 ∉ unambiguousBases ∨ c3 ∉ unambiguousBases) →
      ∃ r u, translateNATriplet [c1, c2, c3] = some r ∧
        uniqueAAsOf c1 c2 c3 = some u ∧ u.Nodup ∧
        (∀ x, x ∈ u ↔ ∃ codon ∈ enumerateCodonPossibilities c1 c2 c3,
          codonToAminoAcidMap codon.1 codon.2.1 codon.2.2 = some x) ∧
        (r = ['X'] ↔ 4 < u.length) ∧
        (u.length ≤ 4 →
          ∀ codon ∈ enumerateCodonPossibilities c1 c2 c3, ∀ a,
            codonToAminoAcidMap codon.1 codon.2.1 codon.2.2 = some a →
              a ∈ r)) ∧
    (∀ t : List Char, t.length = 3 → ('~' ∈ t ∨ '-' ∈ t) →
      translateNATriplet t = some ['X']) := by
  constructor
  · intro c1 c2 c3 h1 h2 h3 _
    obtain ⟨u, hu, htr, hnd, hiff, hX⟩ := translate_nas c1 c2 c3 h1 h2 h3
    refine ⟨_, u, htr, hu, hnd, hiff, ?_, ?_⟩
    · by_cases hlen : 4 < u.length
      · simp [hlen]
      · rw [if_neg hlen]
        constructor
        · intro he
          exact absurd (he ▸ List.mem_singleton_self 'X') hX
        · intro h
          exact absurd h hlen
    · intro hle codon hcod a ha
      rw [if_neg (by omega : ¬ 4 < u.length)]
      exact (hiff a).mpr ⟨codon, hcod, ha⟩
  · intro t hlen hgap
    by_cases htilde : t.contains '~' = true
    · simp only [translateNATriplet, hlen]
      simp only [htilde]
      simp
    · have hdash : '-' ∈ t := by
        rcases hgap with h | h
        · exact absurd (by simpa using h) htilde
        · exact h
      have hall : (t.all fun x => nas.contains x) = false := by
        apply Bool.eq_false_iff.mpr
        intro hall
        have h'' := List.all_eq_true.mp hall '-' hdash
        simp [nas] at h''
      have htab : inTripletTable t = false := by
        unfold inTripletTable
        rw [hlen, hall, Bool.and_false]
      have htilde' : ¬('~' ∈ t) := by simpa using htilde
      simp [translateNATriplet, hlen, htilde', htab]

/-- Witness for C3: the triplet `YTD` resolves to `{L, F}` (2 distinct
symbols, so no `X` collapse), and the triplet `AC~` contains the gap marker
and maps to `X`. -/
theorem C3_ambiguous_triplet_translation_witness :
    ('Y' ∈ nas ∧ 'T' ∈ nas ∧ 'D' ∈ nas ∧ 'Y' ∉ unambiguousBases) ∧
    (∃ r u, translateNATriplet ['Y', 'T', 'D'] = some r ∧
      uniqueAAsOf 'Y' 'T' 'D' = some u ∧ u.Nodup ∧
      (∀ x, x ∈ u ↔ ∃ codon ∈ enumerateCodonPossibilities 'Y' 'T' 'D',
        codonToAminoAcidMap codon.1 codon.2.1 codon.2.2 = some x) ∧
      (r = ['X'] ↔ 4 < u.length) ∧
      (u.length ≤ 4 →
        ∀ codon ∈ enumerateCodonPossibilities 'Y' 'T' 'D', ∀ a,
          codonToAminoAcidMap codon.1 codon.2.1 codon.2.2 = some a →
            a ∈ r)) ∧
    translateNATriplet ['A', 'C', '~'] = some ['X'] ∧
    translateNATriplet ['Y', 'T', 'D'] = some ['L', 'F'] :=
  ⟨⟨by decide, by decide, by decide, by decide⟩,
   C3_ambiguous_triplet_translation.1 'Y' 'T' 'D' (by decide) (by decide)
     (by decide) (Or.inl (by decide)),
   C3_ambiguous_triplet_translation.2 ['A', 'C', '~'] rfl (Or.inl (by decide)),
   rfl⟩

/-- C4: on triplets built only from the unambiguous bases A, C, G, T,
`translateNATriplet` returns exactly the one-symbol standard-genetic-code
translation of the codon, with `*` for the three stop codons; in particular
`ATG ↦ M` and `TAA, TAG, TGA ↦ *`. -/
theorem C4_unambiguous_triplet_translation :
    (∀ c1 c2 c3 : Char, c1 ∈ unambiguousBases → c2 ∈ unambiguousBases →
      c3 ∈ unambiguousBases →
      ∃ a, codonToAminoAcidMap c1 c2 c3 = some a ∧
        translateNATriplet [c1, c2, c3] = some [a]) ∧
    translateNATriplet ['A', 'T', 'G'] = some ['M'] ∧
    translateNATriplet ['T', 'A', 'A'] = some ['*'] ∧
    translateNATriplet ['T', 'A', 'G'] = some ['*'] ∧
    translateNATriplet ['T', 'G', 'A'] = some ['*'] := by
  refine ⟨?_, rfl, rfl, rfl, rfl⟩
  intro c1 c2 c3 h1 h2 h3
  have hsub : ∀ c ∈ unambiguousBases, c ∈ nas := by decide
  obtain ⟨a, ha⟩ :=
    Option.isSome_iff_exists.mp (codonMap_acgt c1 h1 c2 h2 c3 h3).1
  refine ⟨a, ha, ?_⟩
  have hamb : ∀ c ∈ unambiguousBases, ambiguityMap c = [c] := by decide
  have henum : enumerateCodonPossibilities c1 c2 c3 = [(c1, c2, c3)] := by
    simp [enumerateCodonPossibilities, hamb c1 h1, hamb c2 h2, hamb c3 h3]
  have hu : uniqueAAsOf c1 c2 c3 = some [a] := by
    simp [uniqueAAsOf, henum, codonAAs, ha, dedupAppend]
  obtain ⟨u, hu', htr, _, _, _⟩ :=
    translate_nas c1 c2 c3 (hsub c1 h1) (hsub c2 h2) (hsub c3 h3)
  rw [hu] at hu'
  obtain rfl := Option.some_injective _ hu'.symm
  simpa using htr

/-- Witness for C4: the codon `GCA` translates to the single symbol `A`
(alanine). -/
theorem C4_unambiguous_triplet_translation_witness :
    ('G' ∈ unambiguousBases ∧ 'C' ∈ unambiguousBases ∧
      'A' ∈ unambiguousBases) ∧
    ∃ a, codonToAminoAcidMap 'G' 'C' 'A' = some a ∧
      translateNATriplet ['G', 'C', 'A'] = some [a] :=
  ⟨⟨by decide, by decide, by decide⟩,
   C4_unambiguous_triplet_translation.1 'G' 'C' 'A' (by decide) (by decide)
     (by decide)⟩

theorem scanLoop_eq_append : ∀ (l : List Bool) (pos p since : Nat)
    (cands : List Nat),
    scanLoop pos p since cands l = cands ++ candidatesAux pos p since l := by
  intro l
  induction l with
  | nil => intro pos p since cands; simp [scanLoop, candidatesAux]
  | cons b rest ih =>
    intro pos p since cands
    simp only [scanLoop, candidatesAux]
    by_cases hs : since > 15
    · simp [hs]
    · rw [if_neg hs, if_neg hs]
      cases b
      · simpa using ih (pos + 1) p (since + 1) cands
      · simp only [if_pos rfl]
        by_cases hC : pcntExceeds (p + 1) (pos + 1)
        · rw [if_pos hC, if_pos hC, ih]
          simp
        · rw [if_neg hC, if_neg hC, ih]
          simp

theorem scanLoop_eq_cross : ∀ (l : List Bool) (pos p since : Nat)
    (cands : List Nat),
    scanLoop pos p since cands l = scanLoopCross pos p since cands l := by
  intro l
  induction l with
  | nil => intro pos p since cands; rfl
  | cons b rest ih =>
    intro pos p since cands
    simp only [scanLoop, scanLoopCross]
    by_cases hs : since > 15
    · simp [hs]
    · rw [if_neg hs, if_neg hs]
      cases b
      · simpa using ih (pos + 1) p (since + 1) cands
      · simp only [if_pos rfl]
        have hiff : pcntExceeds (p + 1) (pos + 1) ↔
            (100 * (p + 1) > 30 * (pos + 1)) := by
          unfold pcntExceeds
          rw [if_pos (Nat.succ_pos pos), gt_iff_lt,
            lt_div_iff₀ (by positivity), gt_iff_lt, ← @Nat.cast_lt ℚ]
          push_cast
          constructor <;> intro h <;> linarith
        rw [ih, ih]
        by_cases hC : pcntExceeds (p + 1) (pos + 1)
        · rw [if_pos hC, if_pos (hiff.mp hC)]
        · rw [if_neg hC, if_neg (fun h => hC (hiff.mpr h))]

theorem candidatesAux_eq : ∀ (l : List Bool) (pos p since : Nat),
    candidatesAux pos p since l =
      (List.range (processedPrefix since l).length).filterMap (fun i =>
        if (processedPrefix since l).getD i false &&
            decide (pcntExceeds
              (p + ((processedPrefix since l).take (i + 1)).count true)
              (pos + i + 1))
        then some (pos + i + 1) else none) := by
  intro l
  induction l with
  | nil => intro pos p since; simp [candidatesAux, processedPrefix]
  | cons b rest ih =>
    intro pos p since
    by_cases hs : since > 15
    · simp [candidatesAux, processedPrefix, hs]
    · cases b
      · have hproc : processedPrefix since (false :: rest) =
            false :: processedPrefix (since + 1) rest := by
          simp [processedPrefix, hs]
        have haux : candidatesAux pos p since (false :: rest) =
            candidatesAux (pos + 1) p (since + 1) rest := by
          simp [candidatesAux, hs]
        rw [hproc, haux, ih (pos + 1) p (since + 1)]
        rw [List.length_cons, List.range_succ_eq_map, List.filterMap_cons]
        simp only [List.getD_cons_zero, Bool.false_and, Bool.false_eq_true,
          if_false]
        rw [List.filterMap_map]
        congr 1
        funext i
        simp only [Function.comp_apply, List.getD_cons_succ]
        rw [show (false :: processedPrefix (since + 1) rest).take (i + 1 + 1) =
            false :: (processedPrefix (since + 1) rest).take (i + 1) from
          List.take_succ_cons]
        rw [show ((false :: (processedPrefix (since + 1) rest).take (i + 1)).count
              true) = ((processedPrefix (since + 1) rest).take (i + 1)).count true
          from by simp [List.count_cons]]
        rw [show pos + (i + 1) + 1 = pos + 1 + i + 1 from by omega]
      · have hproc : processedPrefix since (true :: rest) =
            true :: processedPrefix 0 rest := by
          simp [processedPrefix, hs]
        have haux : candidatesAux pos p since (true :: rest) =
            (if pcntExceeds (p + 1) (pos + 1)
              then [pos + 1] else []) ++ candidatesAux (pos + 1) (p + 1) 0 rest := by
          simp only [candidatesAux]
          rw [if_neg hs, if_pos trivial]
        rw [hproc, haux, ih (pos + 1) (p + 1) 0]
        rw [List.length_cons, List.range_succ_eq_map, List.filterMap_cons]
        have hhead : (if (true :: processedPrefix 0 rest).getD 0 false &&
            decide (pcntExceeds (p + ((true :: processedPrefix 0 rest).take
                (0 + 1)).count true) (pos + 0 + 1))
          then some (pos + 0 + 1) else none) =
            (if pcntExceeds (p + 1) (pos + 1)
              then some (pos + 1) else none) := by
          simp only [List.getD_cons_zero, Bool.true_and, List.take_succ_cons,
            List.take_zero, List.count_cons, List.count_nil, Nat.add_zero]
          rw [show (0 + (if (true : Bool) == true then 1 else 0)) = 1 from by simp]
          rw [show pos + 0 + 1 = pos + 1 from by omega]
          by_cases hC : pcntExceeds (p + 1) (pos + 1)
          · rw [if_pos (by simpa using hC), if_pos hC]
          · rw [if_neg (by simpa using hC), if_neg hC]
        rw [hhead]
        rw [List.filterMap_map]
        have htail : (List.range (processedPrefix 0 rest).length).filterMap
            (fun i =>
              if (processedPrefix 0 rest).getD i false &&
                  decide (pcntExceeds
                    (p + 1 + ((processedPrefix 0 rest).take (i + 1)).count true)
                    (pos + 1 + i + 1))
              then some (pos + 1 + i + 1) else none) =
            (List.range (processedPrefix 0 rest).length).filterMap
            ((fun i =>
              if (true :: processedPrefix 0 rest).getD i false &&
                  decide (pcntExceeds
                    (p + ((true :: processedPrefix 0 rest).take (i + 1)).count
                      true) (pos + i + 1))
              then some (pos + i + 1) else none) ∘ Nat.succ) := by
          congr 1
          funext i
          simp only [Function.comp_apply, List.getD_cons_succ]
          rw [show (true :: processedPrefix 0 rest).take (i + 1 + 1) =
              true :: (processedPrefix 0 rest).take (i + 1) from
            List.take_succ_cons]
          rw [show ((true :: (processedPrefix 0 rest).take (i + 1)).count true) =
              ((processedPrefix 0 rest).take (i + 1)).count true + 1 from by
            simp [List.count_cons]]
          rw [show p + (((processedPrefix 0 rest).take (i + 1)).count true + 1) =
              p + 1 + ((processedPrefix 0 rest).take (i + 1)).count true from by
            omega]
          rw [show pos + (i + 1) + 1 = pos + 1 + i + 1 from by omega]
        rw [htail]
        cases hC : decide (pcntExceeds (p + 1) (pos + 1))
        · rw [if_neg (by simpa using hC)]
          rw [if_neg (by simpa using hC)]
          simp
        · rw [if_pos (by simpa using hC)]
          rw [if_pos (by simpa using hC)]
          simp

theorem getD_replicate_false (r n : Nat) :
    (List.replicate r false).getD n false = false := by
  rcases Nat.lt_or_ge n r with h | h
  · rw [List.getD_eq_getElem _ _ (by simpa using h)]
    simp
  · exact List.getD_eq_default _ _ (by simpa using h)

/-- Position lookup in the single-isolated-invalid bitmap: the only `true`
sits at index `a`. -/
theorem sitesShape_getD (a b i : Nat) :
    (List.replicate a false ++ true :: List.replicate b false).getD i false =
      decide (i = a) := by
  rcases lt_trichotomy i a with h | h | h
  · rw [List.getD_append _ _ _ _ (by simpa using h), getD_replicate_false]
    simp
    omega
  · subst h
    rw [List.getD_append_right _ _ _ _ (by simp)]
    simp
  · rw [List.getD_append_right _ _ _ _ (by simp; omega)]
    rw [show i - (List.replicate a false).length = (i - a - 1) + 1 from by
      simp; omega]
    rw [List.getD_cons_succ, getD_replicate_false]
    simp
    omega

/-- In the single-isolated-invalid bitmap, the prefix of length `a + 1`
contains exactly one invalid position. -/
theorem sitesTake_count (a b : Nat) :
    ((List.replicate a false ++ true :: List.replicate b false).take
      (a + 1)).count true = 1 := by
  rw [List.take_append_eq_append_take]
  rw [List.take_of_length_le (by simp)]
  rw [show (a + 1 - (List.replicate a false).length) = 1 from by simp]
  rw [show (true :: List.replicate b false).take 1 = [true] from rfl]
  rw [List.count_append]
  simp [List.count_eq_zero, List.mem_replicate]

/-- The scanned prefix really is a prefix of the bitmap. -/
theorem processedPrefix_isPrefix : ∀ (l : List Bool) (since : Nat),
    ∃ t, processedPrefix since l ++ t = l := by
  intro l
  induction l with
  | nil => intro since; exact ⟨[], rfl⟩
  | cons b rest ih =>
    intro since
    by_cases hs : since > 15
    · exact ⟨b :: rest, by simp [processedPrefix, hs]⟩
    · obtain ⟨t, ht⟩ := ih (if b then 0 else since + 1)
      exact ⟨t, by simp [processedPrefix, hs, ht]⟩

/-- On the single-isolated-invalid bitmap with at least 15 leading valid
positions, no trim candidate is ever recorded. -/
theorem candidatesSpec_single (a b : Nat) (ha : 15 ≤ a) :
    candidatesSpec (List.replicate a false ++ true :: List.replicate b false)
      = [] := by
  unfold candidatesSpec
  apply List.filterMap_eq_nil_iff.mpr
  intro i _
  cases hget : (processedPrefix 0 (List.replicate a false ++
      true :: List.replicate b false)).getD i false with
  | false => simp [hget]
  | true =>
    obtain ⟨t, ht⟩ := processedPrefix_isPrefix
      (List.replicate a false ++ true :: List.replicate b false) 0
    have hi : i < (processedPrefix 0 (List.replicate a false ++
        true :: List.replicate b false)).length := by
      by_contra hcon
      rw [List.getD_eq_default _ _ (le_of_not_lt hcon)] at hget
      exact Bool.false_ne_true hget
    have hsget : (List.replicate a false ++
        true :: List.replicate b false).getD i false = true := by
      rw [← ht, List.getD_append _ _ _ _ hi]
      exact hget
    have hia : i = a := by
      have hs := sitesShape_getD a b i
      rw [hsget] at hs
      exact of_decide_eq_true hs.symm
    subst hia
    have hsub : List.Sublist ((processedPrefix 0 (List.replicate i false ++
        true :: List.replicate b false)).take (i + 1))
        ((List.replicate i false ++ true :: List.replicate b false).take
          (i + 1)) := by
      have htake := congrArg (List.take (i + 1)) ht
      rw [List.take_append_eq_append_take] at htake
      rw [← htake]
      exact (List.prefix_append _ _).sublist
    have hcnt : ((processedPrefix 0 (List.replicate i false ++
        true :: List.replicate b false)).take (i + 1)).count true ≤ 1 := by
      have hle := List.Sublist.count_le hsub true
      rwa [sitesTake_count i b] at hle
    have hno : ¬ ((((processedPrefix 0 (List.replicate i false ++
        true :: List.replicate b false)).take (i + 1)).count true : ℚ) /
          ((i : ℚ) + 1) * 100 > 30) := by
      rw [gt_iff_lt, not_lt]
      have h1 : (((processedPrefix 0 (List.replicate i false ++
          true :: List.replicate b false)).take (i + 1)).count true : ℚ) ≤ 1 := by
        exact_mod_cast hcnt
      have h2 : (16 : ℚ) ≤ (i : ℚ) + 1 := by
        have h2' : (16 : ℕ) ≤ i + 1 := by omega
        exact_mod_cast h2'
      have hpos : (0 : ℚ) < (i : ℚ) + 1 := by positivity
      rw [div_mul_eq_mul_div, div_le_iff₀ hpos]
      nlinarith
    simp [hget, hno]

/-- The forward scan returns the last spec-side candidate (0 when none). -/
theorem trimSpec_forward (sites : List Bool) :
    forwardTrim sites = (candidatesSpec sites).getLastD 0 := by
  unfold forwardTrim
  rw [scanLoop_eq_append, List.nil_append, candidatesAux_eq]
  unfold candidatesSpec
  apply congrArg (fun l => List.getLastD l 0)
  apply congrArg (fun f => List.filterMap f
    (List.range (processedPrefix 0 sites).length))
  funext i
  rw [show (0 : Nat) + ((processedPrefix 0 sites).take (i + 1)).count true =
      ((processedPrefix 0 sites).take (i + 1)).count true from by omega]
  rw [show (0 : Nat) + i + 1 = i + 1 from by omega]
  have hcast : ((i + 1 : Nat) : ℚ) = (i : ℚ) + 1 := by push_cast; ring
  have hiff : pcntExceeds
        (((processedPrefix 0 sites).take (i + 1)).count true) (i + 1) ↔
      ((((processedPrefix 0 sites).take (i + 1)).count true : Nat) : ℚ) /
        ((i : ℚ) + 1) * 100 > 30 := by
    unfold pcntExceeds
    rw [if_pos (Nat.succ_pos i), hcast, mul_div_right_comm]
  rw [decide_eq_decide.mpr hiff]

theorem backwardTrim_eq (sites : List Bool) :
    backwardTrim sites = forwardTrim sites.reverse := rfl

/-- C5: for every input to `trimLowQualities` whose invalid-sites bitmap has
exactly one invalid position with at least 15 valid positions on each side,
the function returns `(trimLeft, trimRight) = (0, 0)`. -/
theorem C5_isolated_invalid_no_trim (PI RTI INI : String → Option ℚ)
    (apobecDRMs : List (String × Char × Nat × List Char))
    (gene subtype : String) (shift firstAA lastAA : Nat)
    (muts : List ((Nat × Char × List Char) × List Char)) (a b : Nat)
    (hsites : buildInvalidSites PI RTI INI apobecDRMs gene subtype shift
        firstAA lastAA muts =
      List.replicate a false ++ true :: List.replicate b false)
    (ha : 15 ≤ a) (hb : 15 ≤ b) :
    trimLowQualities PI RTI INI apobecDRMs gene subtype shift firstAA lastAA
      muts = (0, 0) := by
  simp only [trimLowQualities]
  rw [hsites]
  have hrev : (List.replicate a false ++
      true :: List.replicate b false).reverse =
      List.replicate b false ++ true :: List.replicate a false := by
    simp [List.reverse_append]
  rw [trimSpec_forward, candidatesSpec_single a b ha, backwardTrim_eq, hrev,
    trimSpec_forward, candidatesSpec_single b a hb]
  rfl

/-- Witness for C5: the concrete single-mutation input `C5muts` produces the
bitmap with one invalid position at index 15 of 31, and the trimmer returns
`(0, 0)`. -/
theorem C5_isolated_invalid_no_trim_witness :
    (buildInvalidSites noTable noTable noTable [] "RT" "B" 0 100 130 C5muts =
      List.replicate 15 false ++ true :: List.replicate 15 false) ∧
    trimLowQualities noTable noTable noTable [] "RT" "B" 0 100 130 C5muts =
      (0, 0) :=
  ⟨by decide,
   C5_isolated_invalid_no_trim noTable noTable noTable [] "RT" "B" 0 100 130
     C5muts 15 15 (by decide) (by decide) (by decide)⟩

/-- C6: for each end, `trimLowQualities` returns the last (furthest-
reaching) candidate recorded by the scan — an extent `i + 1` is a candidate
exactly when position `i` of the scanned prefix is invalid and the running
bad-percentage `(invalid-count-so-far / positions-scanned-so-far) × 100`
exceeds 30 — or 0 when no candidate was recorded; the backward scan is the
forward scan of the reversed bitmap. -/
theorem C6_trim_is_last_candidate (PI RTI INI : String → Option ℚ)
    (apobecDRMs : List (String × Char × Nat × List Char))
    (gene subtype : String) (shift firstAA lastAA : Nat)
    (muts : List ((Nat × Char × List Char) × List Char)) :
    trimLowQualities PI RTI INI apobecDRMs gene subtype shift firstAA lastAA
        muts =
      ((candidatesSpec (buildInvalidSites PI RTI INI apobecDRMs gene subtype
          shift firstAA lastAA muts)).getLastD 0,
       (candidatesSpec ((buildInvalidSites PI RTI INI apobecDRMs gene subtype
          shift firstAA lastAA muts).reverse)).getLastD 0) := by
  simp only [trimLowQualities]
  rw [trimSpec_forward, backwardTrim_eq, trimSpec_forward]

/-- Counterexample for C7: on the bitmap with invalid positions {3, 7, 11,
12}, the running percentage at index 12 is 400/13 ≈ 30.77; the source's true
division records candidate 13, while the truncating-integer-division reading
of the claim truncates 400/13 to 30, records nothing, and trims 0. -/
theorem C7_truncating_division_counterexample :
    forwardTrim C7bitmap = 13 ∧ forwardTrimTruncated C7bitmap = 0 := by
  constructor
  · decide
  · decide

/-- C7 amended: the bad-percentage comparison of `trimLowQualities` uses
Python 3 true division and compares the exact quotient with the 30 cutoff —
equivalently, a candidate is recorded iff `100 * problemSites > 30 * extent`
— with no truncation before the comparison. -/
theorem C7_division_is_exact (sites : List Bool) :
    forwardTrim sites = forwardTrimCross sites ∧
    backwardTrim sites = backwardTrimCross sites := by
  constructor
  · unfold forwardTrim forwardTrimCross
    rw [scanLoop_eq_cross]
  · unfold backwardTrim backwardTrimCross
    rw [scanLoop_eq_cross]

theorem lookup_dictSet_self {α : Type} (k : String) (v : α) :
    ∀ d : List (String × α), (dictSet d k v).lookup k = some v := by
  intro d
  induction d with
  | nil => simp [dictSet, List.lookup]
  | cons p rest ih =>
    simp only [dictSet]
    by_cases hp : p.1 == k
    · rw [if_pos hp]
      simp [List.lookup]
    · rw [if_neg hp]
      have hne : (p.1 == k) = false := by
        cases h : p.1 == k
        · rfl
        · exact absurd h hp
      have hne' : (k == p.1) = false := by
        cases h : k == p.1
        · rfl
        · exact absurd (by simpa using (beq_iff_eq.mp h).symm) hp
      simp [List.lookup, hne', ih]

theorem lookup_dictSet_ne {α : Type} (k k' : String) (v : α) (h : k' ≠ k) :
    ∀ d : List (String × α), (dictSet d k v).lookup k' = d.lookup k' := by
  intro d
  induction d with
  | nil =>
    simp [dictSet, List.lookup, show (k' == k) = false from by
      simpa using h]
  | cons p rest ih =>
    simp only [dictSet]
    by_cases hp : p.1 == k
    · rw [if_pos hp]
      have hpk : p.1 = k := beq_iff_eq.mp hp
      simp [List.lookup, show (k' == k) = false from by simpa using h, hpk]
    · rw [if_neg hp]
      simp only [List.lookup]
      cases hkp : k' == p.1
      · simp [ih]
      · simp

/-- Folding the remaining elements never disturbs a key none of them
writes. -/
theorem parse_drugs_untouched {α : Type} (parseCondition : String → α) :
    ∀ (elements : List DrugElement) (d : List (String × α)) (k : String),
      (∀ e ∈ elements, e.name ≠ k ∧ e.fullname ≠ k) →
      (elements.foldl (insertDrug parseCondition) d).lookup k = d.lookup k := by
  intro elements
  induction elements with
  | nil => intro d k _; rfl
  | cons e rest ih =>
    intro d k h
    obtain ⟨hn, hf⟩ := h e (by simp)
    have hrest : ∀ e' ∈ rest, e'.name ≠ k ∧ e'.fullname ≠ k := by
      intro e' he'; exact h e' (by simp [he'])
    simp only [List.foldl_cons]
    rw [ih _ k hrest]
    unfold insertDrug
    rw [lookup_dictSet_ne _ _ _ (fun hk => hf hk.symm)]
    rw [lookup_dictSet_ne _ _ _ (fun hk => hn hk.symm)]

theorem parse_drugs_go {α : Type} (parseCondition : String → α) :
    ∀ (elements : List DrugElement) (d : List (String × α)) (e : DrugElement),
      e ∈ elements →
      elements.Pairwise (fun e₁ e₂ => e₁.name ≠ e₂.name ∧
        e₁.name ≠ e₂.fullname ∧ e₁.fullname ≠ e₂.name ∧
        e₁.fullname ≠ e₂.fullname) →
      (elements.foldl (insertDrug parseCondition) d).lookup e.name =
        some (parseCondition e.condition) ∧
      (elements.foldl (insertDrug parseCondition) d).lookup e.fullname =
        some (parseCondition e.condition) := by
  intro elements
  induction elements with
  | nil => intro d e he _; exact absurd he (List.not_mem_nil e)
  | cons hd rest ih =>
    intro d e he hdist
    rcases List.mem_cons.mp he with rfl | he'
    · have hunt : ∀ k, (e.name = k ∨ e.fullname = k) →
          (rest.foldl (insertDrug parseCondition)
            (insertDrug parseCondition d e)).lookup k =
          (insertDrug parseCondition d e).lookup k := by
        intro k hk
        apply parse_drugs_untouched
        intro e' he''
        have hp := (List.pairwise_cons.mp hdist).1 e' he''
        rcases hk with rfl | rfl
        · exact ⟨fun hnk => hp.1 hnk.symm, fun hfk => hp.2.1 hfk.symm⟩
        · exact ⟨fun hnk => hp.2.2.1 hnk.symm, fun hfk => hp.2.2.2 hfk.symm⟩
      constructor
      · rw [List.foldl_cons, hunt e.name (Or.inl rfl)]
        unfold insertDrug
        by_cases hsame : e.fullname = e.name
        · rw [hsame, lookup_dictSet_self]
        · rw [lookup_dictSet_ne _ _ _ (fun hk => hsame hk.symm),
            lookup_dictSet_self]
      · rw [List.foldl_cons, hunt e.fullname (Or.inr rfl)]
        unfold insertDrug
        rw [lookup_dictSet_self]
    · rw [List.foldl_cons]
      exact ih (insertDrug parseCondition d hd) e he'
        (List.pairwise_cons.mp hdist).2

/-- C9: after `parse_drugs`, every DRUG element's short name and full name
are both keys of the resulting dict and resolve to the same parsed
condition list (assuming, as in the real rule document, that no two DRUG
elements share any name). -/
theorem C9_parse_drugs_aliases {α : Type} (parseCondition : String → α)
    (elements : List DrugElement) (e : DrugElement) (he : e ∈ elements)
    (hdist : elements.Pairwise (fun e₁ e₂ => e₁.name ≠ e₂.name ∧
      e₁.name ≠ e₂.fullname ∧ e₁.fullname ≠ e₂.name ∧
      e₁.fullname ≠ e₂.fullname)) :
    (parse_drugs parseCondition elements).lookup e.name =
      some (parseCondition e.condition) ∧
    (parse_drugs parseCondition elements).lookup e.fullname =
      some (parseCondition e.condition) :=
  parse_drugs_go parseCondition elements [] e he hdist

/-- Witness for C9: two DRUG elements; the first one's short and full names
both resolve to its parsed condition. -/
theorem C9_parse_drugs_aliases_witness :
    (DrugElement.mk "AZT" "zidovudine" "c1") ∈
      [DrugElement.mk "AZT" "zidovudine" "c1",
       DrugElement.mk "3TC" "lamivudine" "c2"] ∧
    (parse_drugs (fun s => s)
      [DrugElement.mk "AZT" "zidovudine" "c1",
       DrugElement.mk "3TC" "lamivudine" "c2"]).lookup "AZT" = some "c1" ∧
    (parse_drugs (fun s => s)
      [DrugElement.mk "AZT" "zidovudine" "c1",
       DrugElement.mk "3TC" "lamivudine" "c2"]).lookup "zidovudine" =
      some "c1" :=
  ⟨by decide,
   C9_parse_drugs_aliases (fun s => s) _ (DrugElement.mk "AZT" "zidovudine" "c1")
     (by decide) (by decide)⟩

/-- Counterexample for C8: `firstAA = 600` lies in no gene interval
(`gene_map` is `PR ↦ [56, 154]`, `RT ↦ [155, 594]`, `IN ↦ [715, 1003]`);
`get_gene` returns `None` and the shift computation of `get_mutations`
raises `KeyError` on `gene_map[None]` instead of recovering — the claimed
fallback exists only in the legacy draft. -/
theorem C8_no_gene_crash_counterexample :
    get_gene 600 = none ∧ get_mutations_shift 600 = .error .keyError := by
  constructor <;> rfl

/-- C8 amended: when no gene boundary contains `firstAA`, the current
mutation caller (sierralocal/nucaminohook.py) raises `KeyError` from the
`gene_map[None]` lookup, so the sequence is not processed; only the legacy
draft (src/nucaminohook.py) recovers, falling back to the conservative
default gene set `['RT', 'PR', 'IN']` when no position matches any gene
interval. -/
theorem C8_gene_fallback_by_variant :
    (∀ firstAA : Nat, get_gene firstAA = none →
      get_mutations_shift firstAA = .error .keyError) ∧
    (∀ (genemap : List (String × Nat × Nat)) (positions : List Nat)
        (shift : Nat),
      (∀ p ∈ positions, ∀ kr ∈ genemap,
        ¬(kr.2.1 ≤ p + shift ∧ p + shift ≤ kr.2.2)) →
      legacy_genelist genemap positions shift = ["RT", "PR", "IN"]) := by
  constructor
  · intro firstAA h
    unfold get_mutations_shift
    rw [h]
  · intro genemap positions shift h
    have hinner : ∀ (gm : List (String × Nat × Nat)) (gl : List String)
        (p : Nat), (∀ kr ∈ gm, ¬(kr.2.1 ≤ p + shift ∧ p + shift ≤ kr.2.2)) →
        gm.foldl (legacyGeneStep p shift) gl = gl := by
      intro gm
      induction gm with
      | nil => intro gl p _; rfl
      | cons kr rest ih =>
        intro gl p hk
        simp only [List.foldl_cons]
        rw [show legacyGeneStep p shift gl kr = gl from by
          unfold legacyGeneStep
          rw [if_neg (hk kr (by simp))]]
        exact ih gl p (fun kr' hkr' => hk kr' (by simp [hkr']))
    have houter : ∀ (ps : List Nat) (gl : List String),
        (∀ p ∈ ps, ∀ kr ∈ genemap,
          ¬(kr.2.1 ≤ p + shift ∧ p + shift ≤ kr.2.2)) →
        ps.foldl (fun genelist p =>
          genemap.foldl (legacyGeneStep p shift) genelist) gl = gl := by
      intro ps
      induction ps with
      | nil => intro gl _; rfl
      | cons p rest ih =>
        intro gl hp
        simp only [List.foldl_cons]
        rw [hinner genemap gl p (hp p (by simp))]
        exact ih gl (fun p' hp' => hp p' (by simp [hp']))
    unfold legacy_genelist
    rw [houter positions [] h]
    rfl

/-- Witness for C8's amended statement: at `firstAA = 600` the current
variant raises `KeyError`, while the legacy draft falls back to the default
gene set for a sequence whose only position matches no interval. -/
theorem C8_gene_fallback_by_variant_witness :
    (get_gene 600 = none ∧
      get_mutations_shift 600 = .error .keyError) ∧
    legacy_genelist gene_map [600] 0 = ["RT", "PR", "IN"] :=
  ⟨⟨rfl, C8_gene_fallback_by_variant.1 600 rfl⟩,
   C8_gene_fallback_by_variant.2 gene_map [600] 0 (by decide)⟩

/-- `getMutPrevalence` is the lookup in the gene's selected table,
defaulting to 100.0 for a missing key or an unknown gene. -/
theorem getMutPrevalence_eq_selected (PI RTI INI : String → Option ℚ)
    (position : Nat) (cons aa : Char) (gene subtype : String) :
    getMutPrevalence PI RTI INI position cons aa gene subtype =
      (selectedPrevTable PI RTI INI gene
        (mkPrevKey position cons aa subtype)).getD 100 := by
  by_cases h1 : gene = "IN"
  · subst h1
    simp only [getMutPrevalence, selectedPrevTable]
    cases hl : INI (mkPrevKey position cons aa subtype) <;> simp [hl]
  · by_cases h2 : gene = "PR"
    · subst h2
      simp only [getMutPrevalence, selectedPrevTable]
      cases hl : PI (mkPrevKey position cons aa subtype) <;> simp [hl]
    · by_cases h3 : gene = "RT"
      · subst h3
        simp only [getMutPrevalence, selectedPrevTable]
        cases hl : RTI (mkPrevKey position cons aa subtype) <;> simp [hl]
      · have b1 : (gene == "IN") = false := by simpa using h1
        have b2 : (gene == "PR") = false := by simpa using h2
        have b3 : (gene == "RT") = false := by simpa using h3
        simp [getMutPrevalence, selectedPrevTable, b1, b2, b3]

theorem foldl_max_const_100 : ∀ (l : List ℚ) (acc : ℚ),
    (∀ x ∈ l, x = 100) → l ≠ [] → l.foldl max acc = max acc 100 := by
  intro l
  induction l with
  | nil => intro acc _ h; exact absurd rfl h
  | cons x xs ih =>
    intro acc hx _
    have hx100 : x = 100 := hx x (by simp)
    subst hx100
    simp only [List.foldl_cons]
    cases xs with
    | nil => rfl
    | cons y ys =>
      rw [ih (max acc 100) (fun z hz => hx z (by simp [hz])) (by simp)]
      rw [max_assoc, max_self]

/-- C10: `getHighestMutPrevalence` is the maximum, over the observed amino
acids with the consensus letter and stop symbol removed, of the selected
table's prevalence with 100.0 for a missing key or a gene other than
PR/RT/IN; it is 0.0 when every observed amino acid is the consensus or a
stop; and when the remaining amino acids all lack table entries the result
is 100.0, which the trimmer's rarity cutoff (< 0.1) never classifies as
rare. -/
theorem C10_highest_prevalence_spec (PI RTI INI : String → Option ℚ)
    (gene subtype : String) (position : Nat) (cons : Char)
    (aas : List Char) :
    (getHighestMutPrevalence PI RTI INI (position, cons, aas) gene subtype =
      ((aas.filter (fun a => !(a == cons) && !(a == '*'))).map (fun a =>
        (selectedPrevTable PI RTI INI gene
          (mkPrevKey position cons a subtype)).getD 100)).foldl max 0) ∧
    ((∀ a ∈ aas, a = cons ∨ a = '*') →
      getHighestMutPrevalence PI RTI INI (position, cons, aas) gene subtype
        = 0) ∧
    ((aas.filter (fun a => !(a == cons) && !(a == '*')) ≠ [] ∧
      ∀ a ∈ aas.filter (fun a => !(a == cons) && !(a == '*')),
        selectedPrevTable PI RTI INI gene (mkPrevKey position cons a subtype)
          = none) →
      getHighestMutPrevalence PI RTI INI (position, cons, aas) gene subtype
          = 100 ∧
      ¬ belowRareCutoff (getHighestMutPrevalence PI RTI INI
          (position, cons, aas) gene subtype)) := by
  have hmain : getHighestMutPrevalence PI RTI INI (position, cons, aas) gene
      subtype =
      ((aas.filter (fun a => !(a == cons) && !(a == '*'))).map (fun a =>
        (selectedPrevTable PI RTI INI gene
          (mkPrevKey position cons a subtype)).getD 100)).foldl max 0 := by
    unfold getHighestMutPrevalence
    dsimp only
    rw [List.filter_filter, List.foldl_map]
    rw [show (fun a => !(a == '*') && !(a == cons)) =
        (fun a => !(a == cons) && !(a == '*')) from by
      funext a
      rw [Bool.and_comm]]
    apply List.foldl_ext
    intro acc a _
    rw [getMutPrevalence_eq_selected]
  refine ⟨hmain, ?_, ?_⟩
  · intro hall
    rw [hmain]
    have hnil : aas.filter (fun a => !(a == cons) && !(a == '*')) = [] := by
      apply List.filter_eq_nil_iff.mpr
      intro a ha
      rcases hall a ha with rfl | rfl <;> simp
    rw [hnil]
    rfl
  · rintro ⟨hne, hnone⟩
    have h100 : getHighestMutPrevalence PI RTI INI (position, cons, aas) gene
        subtype = 100 := by
      rw [hmain]
      rw [foldl_max_const_100 _ 0 ?_ ?_]
      · norm_num
      · intro x hx
        obtain ⟨a, ha, rfl⟩ := List.mem_map.mp hx
        rw [hnone a ha]
        rfl
      · intro hmapnil
        exact hne (List.map_eq_nil_iff.mp hmapnil)
    refine ⟨h100, ?_⟩
    rw [h100]
    unfold belowRareCutoff
    norm_num

/-- Witness for C10: with empty prevalence tables, the call
`(90, 'T', "LT")` in gene RT has observed set `{L}` after dropping the
consensus, the key is absent, and the prevalence is 100.0 — not rare. -/
theorem C10_highest_prevalence_spec_witness :
    ((['L', 'T'].filter (fun a => !(a == 'T') && !(a == '*')) ≠ []) ∧
      (∀ a ∈ ['L', 'T'].filter (fun a => !(a == 'T') && !(a == '*')),
        selectedPrevTable noTable noTable noTable "RT"
          (mkPrevKey 90 'T' a "B") = none)) ∧
    (getHighestMutPrevalence noTable noTable noTable (90, 'T', ['L', 'T'])
        "RT" "B" = 100 ∧
      ¬ belowRareCutoff (getHighestMutPrevalence noTable noTable noTable
        (90, 'T', ['L', 'T']) "RT" "B")) :=
  ⟨⟨by decide, by decide⟩,
   (C10_highest_prevalence_spec noTable noTable noTable "RT" "B" 90 'T'
     ['L', 'T']).2.2 ⟨by decide, by decide⟩⟩
